import Mathlib

/-!
Verification development for a browser-based local file explorer / editor
(React + File System Access API).  The TypeScript source is shallowly
embedded: React state becomes an explicit `State` record threaded through
the handlers, the filesystem capability becomes a pure value (`FSNode` for
scanning, an association list `Disk` for reads and writes), asynchronous
calls that may throw become `Except` or `Option` results passed in as
parameters, and JavaScript strings in the string-algorithm components are
modelled as `List Char`.

A detail of the source that the embedding keeps: React `useState` setters
do not change the value captured by the closures of the currently running
event handler.  A handler therefore reads the state from the render that
created it, and its setter calls only become visible to later renders.
Each handler below consequently takes the render-time `State` and returns
the state the next render will see.
-/

/-- JavaScript `Array.prototype.sort` comparator outcomes and object keys
are not needed; entry maps (`Record<string, FileEntry>`) become ordered
association lists, since JS objects preserve string-key insertion order. -/
abbrev SMap (α : Type) := List (String × α)

/-- First-match association-list lookup (JS property read). -/
def lookupA {α : Type} : SMap α → String → Option α
  | [], _ => none
  | (k, v) :: rest, key => if k = key then some v else lookupA rest key

/-- JS property assignment: replace the value in place if the key exists,
otherwise append (JS objects keep the original insertion position). -/
def setA {α : Type} : SMap α → String → α → SMap α
  | [], key, v => [(key, v)]
  | (k, w) :: rest, key, v =>
    if k = key then (k, v) :: rest else (k, w) :: setA rest key v

/-- JS `delete obj[key]`: remove the binding if present (keys are unique). -/
def removeA {α : Type} : SMap α → String → SMap α
  | [], _ => []
  | (k, v) :: rest, key => if k = key then rest else (k, v) :: removeA rest key

/-- The `type` field of a `FileEntry` in `FileExplorer.tsx`. -/
inductive EntryType where
  | file
  | directory
deriving DecidableEq, Repr

mutual

/-- The `FileEntry` interface of `FileExplorer.tsx`: `handle` is the opaque
filesystem capability, modelled as the root-relative path it designates;
`children` is the nested `Record<string, FileEntry>` (`EntryMap.nil` models
both an absent and an empty `children` object, which behave alike in every
code path the claims touch). -/
inductive FileEntry where
  | mk (handle : String) (path : String) (type : EntryType) (name : String)
       (children : EntryMap)

/-- A `Record<string, FileEntry>`: an ordered association list (JS objects
preserve string-key insertion order), inlined as an inductive mutual with
`FileEntry` so that the tree functions below are structurally recursive. -/
inductive EntryMap where
  | nil
  | cons (key : String) (entry : FileEntry) (rest : EntryMap)

end

def FileEntry.handle : FileEntry → String
  | .mk h _ _ _ _ => h

def FileEntry.path : FileEntry → String
  | .mk _ p _ _ _ => p

def FileEntry.type : FileEntry → EntryType
  | .mk _ _ t _ _ => t

def FileEntry.name : FileEntry → String
  | .mk _ _ _ n _ => n

def FileEntry.children : FileEntry → EntryMap
  | .mk _ _ _ _ c => c

/-- The keys of an entry map, in order (`Object.keys`). -/
def EntryMap.keys : EntryMap → List String
  | .nil => []
  | .cons k _ rest => k :: rest.keys

/-- The values of an entry map, in order (`Object.values`). -/
def EntryMap.values : EntryMap → List FileEntry
  | .nil => []
  | .cons _ e rest => e :: rest.values

/-- JS property assignment on an entry map: replace in place or append. -/
def EntryMap.set : EntryMap → String → FileEntry → EntryMap
  | .nil, key, v => .cons key v .nil
  | .cons k w rest, key, v =>
    if k = key then .cons k v rest else .cons k w (rest.set key v)

/-- JS `delete` on an entry map. -/
def EntryMap.remove : EntryMap → String → EntryMap
  | .nil, _ => .nil
  | .cons k v rest, key => if k = key then rest else .cons k v (rest.remove key)

/-- The `selectedFile` record of `FileExplorerContext.tsx`. -/
structure SelectedFile where
  filename : String
  code : String
  language : String
  isModified : Bool
deriving DecidableEq, Repr

/-- One entry of the `editedFiles` store of `FileExplorerContext.tsx`
(the per-path unsaved EditBuffer). -/
structure EditBuffer where
  code : String
  language : String
  isModified : Bool
deriving DecidableEq, Repr

/-- The React state visible to the `FileExplorer` component: the context
state of `FileExplorerContext.tsx` plus the component-local `logs`. -/
structure State where
  fileEntries : EntryMap
  selectedFile : SelectedFile
  editedFiles : SMap EditBuffer
  gitignorePatterns : List String
  logs : List String

/-- The on-disk content reachable through file handles, keyed by the
root-relative path a handle designates. -/
abbrev Disk := SMap String

/-- `entry.handle.getFile()` followed by `file.text()`: `none` models a
read that throws. -/
def diskRead (d : Disk) (handle : String) : Option String :=
  lookupA d handle

/-- A successful `createWritable` / `write` / `close` sequence. -/
def diskWrite (d : Disk) (handle : String) (content : String) : Disk :=
  setA d handle content

/-- `handle.remove()` respectively `dirHandle.removeEntry(name)`. -/
def diskRemove (d : Disk) (handle : String) : Disk :=
  removeA d handle

/-! ## Language classifier (`getLanguageFromFileName`, FileExplorer.tsx lines 458-490) -/

/-- JavaScript `str.split(sep)` for a single-character separator:
`n` separators produce `n + 1` (possibly empty) groups, and an input with
no separator yields the one-element list holding the whole input. -/
def jsSplit (sep : Char) : List Char → List (List Char)
  | [] => [[]]
  | c :: rest =>
    match jsSplit sep rest with
    | [] => [[]]
    | g :: gs => if c = sep then [] :: g :: gs else (c :: g) :: gs

/-- JavaScript `arr.pop()` on the non-empty result of `split`: the last
group (the default for `[]` is never reached). -/
def lastGroup : List (List Char) → List Char
  | [] => []
  | [g] => g
  | _ :: g :: gs => lastGroup (g :: gs)

/-- JavaScript `str.split(sep)` as a `String`-level function. -/
def jsSplitStr (sep : Char) (s : String) : List String :=
  (jsSplit sep s.data).map String.mk

/-- JavaScript `str.startsWith(pre)`. -/
def jsStartsWith (s : String) (pre : String) : Bool :=
  pre.data.isPrefixOf s.data

/-- JavaScript `str.includes(c)` / the single-character containment used
by `pat.contains`. -/
def jsContainsChar (s : String) (c : Char) : Bool :=
  s.data.contains c

/-- The whitespace class of JavaScript (the regex class backslash-s and
the characters removed by `String.prototype.trim`). -/
def jsWhitespace (c : Char) : Bool :=
  c == ' ' || c == '\t' || c == '\n' || c == '\x0b' || c == '\x0c' ||
  c == '\r' || c.toNat == 0xa0 || c.toNat == 0x1680 ||
  (decide (0x2000 ≤ c.toNat) && decide (c.toNat ≤ 0x200a)) ||
  c.toNat == 0x2028 || c.toNat == 0x2029 || c.toNat == 0x202f ||
  c.toNat == 0x205f || c.toNat == 0x3000 || c.toNat == 0xfeff

/-- JavaScript `str.trim()`. -/
def trimJS (s : String) : String :=
  String.mk
    ((((s.data.dropWhile jsWhitespace).reverse.dropWhile jsWhitespace).reverse))

/-- The `languageMap` table of FileExplorer.tsx (lines 460-488). -/
def languageMap : SMap String :=
  [("js", "javascript"), ("jsx", "javascript"), ("ts", "typescript"),
   ("tsx", "typescript"), ("html", "html"), ("css", "css"), ("scss", "css"),
   ("sass", "css"), ("json", "json"), ("md", "markdown"), ("py", "python"),
   ("java", "java"), ("c", "c"), ("cpp", "cpp"), ("h", "cpp"), ("hpp", "cpp"),
   ("rs", "rust"), ("go", "go"), ("rb", "ruby"), ("php", "php"),
   ("sql", "sql"), ("yaml", "yaml"), ("yml", "yaml"), ("xml", "xml"),
   ("sh", "shell"), ("bash", "shell"), ("zsh", "shell")]

/-- `getLanguageFromFileName` (FileExplorer.tsx line 458):
`filename.split(dot).pop()?.toLowerCase() || empty`, looked up in
`languageMap` with default `plaintext`. -/
def getLanguageFromFileName (filename : String) : String :=
  let ext := String.mk ((lastGroup (jsSplit '.' filename.data)).map Char.toLower)
  (lookupA languageMap ext).getD "plaintext"

/-- The last dot-separated segment of a filename: the text after the last
dot, or the whole filename when it contains no dot (the behaviour the
amended claim describes). -/
def lastDotSegment : List Char → List Char
  | [] => []
  | c :: rest =>
    if '.' ∈ rest then lastDotSegment rest
    else if c = '.' then rest
    else c :: lastDotSegment rest

/-- The extension as the claim describes it: the text after the last dot,
or empty if the filename contains no dot. -/
def extAfterLastDot (cs : List Char) : List Char :=
  if '.' ∈ cs then lastDotSegment cs else []

/-- The classifier the claim describes: lowercase the extension in the
sense of `extAfterLastDot` and look it up, defaulting to `plaintext`. -/
def classifySpec (filename : String) : String :=
  (lookupA languageMap
    (String.mk ((extAfterLastDot filename.data).map Char.toLower))).getD "plaintext"

/-! ## Tree search and file operations (FileExplorer.tsx) -/

/-- `findEntryByPath` (FileExplorer.tsx lines 600-609): walk the entry map
in order; return an entry whose `path` field matches, descending into the
children of each directory before moving to the next sibling. -/
def findEntryByPath : EntryMap → String → Option FileEntry
  | EntryMap.nil, _ => none
  | EntryMap.cons _ (FileEntry.mk h pa ty nm ch) rest, p =>
    if pa = p then some (FileEntry.mk h pa ty nm ch)
    else if ty = EntryType.directory then
      match findEntryByPath ch p with
      | some e => some e
      | none => findEntryByPath rest p
    else findEntryByPath rest p

/-- `path.split(slash)` with the last segment dropped and re-joined, as in
`handleDeleteFile` and `handleMove`. -/
def parentPathOf (p : String) : String :=
  String.intercalate "/" (jsSplitStr '/' p).dropLast

/-- The last segment of `path.split(slash)` (`pathParts.pop()`). -/
def lastSegmentOf (p : String) : String :=
  (jsSplitStr '/' p).getLastD ""

def restoredLog (p : String) : String :=
  "📄 " ++ p ++ " を編集中の状態から復元しました"

def loadNotFoundLog (p : String) : String :=
  "❌ ファイルが見つかりません: " ++ p

def loadErrLog (m : String) : String :=
  "❌ ファイル読み込みエラー: " ++ m

def loadedLog (p : String) (n : Nat) : String :=
  "📄 " ++ p ++ " を読み込みました (" ++ toString n ++ "文字)"

def saveNoNameLog : String :=
  "❌ ファイル名が指定されていません"

def saveNotFoundLog (p : String) : String :=
  "❌ 保存対象が見つかりません: " ++ p

def writeErrLog (m : String) : String :=
  "❌ ファイル書き込みエラー: " ++ m

def saveErrLog (m : String) : String :=
  "❌ 保存エラー: " ++ m

def savedLog (p : String) (n : Nat) : String :=
  "💾 " ++ p ++ " を保存しました (" ++ toString n ++ "文字)"

def deleteNotFoundLog (p : String) : String :=
  "❌ ファイルが見つかりません: " ++ p

def deleteErrLog (m : String) : String :=
  "❌ ファイル削除エラー: " ++ m

def deletedLog (p : String) : String :=
  "✅ ファイルを削除しました: " ++ p

def log (s : State) (msg : String) : State :=
  { s with logs := s.logs ++ [msg] }

/-- `handleEditorChange` (FileExplorer.tsx lines 526-543): set the live
buffer and mirror it, together with the render-time `language`, into
`editedFiles` under the render-time `selectedFile.filename`. -/
def handleEditorChange (s : State) (value : Option String) : State :=
  let newCode := value.getD ""
  { s with
    selectedFile := { s.selectedFile with code := newCode, isModified := true },
    editedFiles := setA s.editedFiles s.selectedFile.filename
      ⟨newCode, s.selectedFile.language, true⟩ }

/-- `loadFile` (FileExplorer.tsx lines 731-764).  The pending-buffer branch
never touches `disk`; the fresh-load branch reads through the entry handle
(a read that throws is the `none` case of `diskRead`, reported by the
surrounding catch with the thrown message abstracted to a fixed string). -/
def loadFile (s : State) (disk : Disk) (path : String) : State :=
  match lookupA s.editedFiles path with
  | some eb =>
    { s with
      selectedFile := ⟨path, eb.code, eb.language, eb.isModified⟩,
      logs := s.logs ++ [restoredLog path] }
  | none =>
    match findEntryByPath s.fileEntries path with
    | none => log s (loadNotFoundLog path)
    | some e =>
      if e.type ≠ EntryType.file then s
      else
        match diskRead disk e.handle with
        | none => log s (loadErrLog "read")
        | some text =>
          { s with
            selectedFile := ⟨path, text, getLanguageFromFileName path, false⟩,
            logs := s.logs ++ [loadedLog path text.length] }

/-- `saveFile` (FileExplorer.tsx lines 766-819).  `wr` is the outcome of
the `createWritable` / `write` / `close` sequence; on failure the inner
catch logs, rethrows, and the outer catch logs again, leaving everything
else untouched.  On success the live buffer is marked clean, the stored
EditBuffer is replaced by a clean copy, and the code reaches the disk. -/
def saveFile (s : State) (disk : Disk) (wr : Except String Unit) : State × Disk :=
  if s.selectedFile.filename = "" then (log s saveNoNameLog, disk)
  else
    match findEntryByPath s.fileEntries s.selectedFile.filename with
    | none => (log s (saveNotFoundLog s.selectedFile.filename), disk)
    | some e =>
      if e.type ≠ EntryType.file then
        (log s (saveNotFoundLog s.selectedFile.filename), disk)
      else
        match wr with
        | .error m =>
          ({ s with logs := s.logs ++ [writeErrLog m, saveErrLog m] }, disk)
        | .ok _ =>
          ({ s with
              selectedFile := { s.selectedFile with isModified := false },
              editedFiles := setA s.editedFiles s.selectedFile.filename
                ⟨s.selectedFile.code, s.selectedFile.language, false⟩,
              logs := s.logs ++
                [savedLog s.selectedFile.filename s.selectedFile.code.length] },
           diskWrite disk e.handle s.selectedFile.code)

/-- `handleDeleteFile` (FileExplorer.tsx lines 679-729): `confirmOk` is the
result of the `confirm` dialog and `removeRes` the outcome of
`entry.handle.remove()`.  The tree update deletes the key
`fileName` (the bare final segment) from the resolved parent directory's
children, or the key from the root map for a root-level path. -/
def removeChildKey : EntryMap → String → String → Option EntryMap
  | EntryMap.nil, _, _ => none
  | EntryMap.cons k (FileEntry.mk h pa ty nm ch) rest, pp, key =>
    if pa = pp then
      if ty = EntryType.directory then
        some (EntryMap.cons k (FileEntry.mk h pa ty nm (ch.remove key)) rest)
      else some (EntryMap.cons k (FileEntry.mk h pa ty nm ch) rest)
    else if ty = EntryType.directory then
      match removeChildKey ch pp key with
      | some ch' => some (EntryMap.cons k (FileEntry.mk h pa ty nm ch') rest)
      | none =>
        match removeChildKey rest pp key with
        | some rest' => some (EntryMap.cons k (FileEntry.mk h pa ty nm ch) rest')
        | none => none
    else
      match removeChildKey rest pp key with
      | some rest' => some (EntryMap.cons k (FileEntry.mk h pa ty nm ch) rest')
      | none => none

def handleDeleteFile (s : State) (disk : Disk) (confirmOk : Bool)
    (removeRes : Except String Unit) : State × Disk :=
  if s.selectedFile.filename = "" then (s, disk)
  else if !confirmOk then (s, disk)
  else
    match findEntryByPath s.fileEntries s.selectedFile.filename with
    | none => (log s (deleteNotFoundLog s.selectedFile.filename), disk)
    | some e =>
      if e.type ≠ EntryType.file then
        (log s (deleteNotFoundLog s.selectedFile.filename), disk)
      else
        match removeRes with
        | .error m => (log s (deleteErrLog m), disk)
        | .ok _ =>
          let disk' := diskRemove disk e.handle
          let fileName := lastSegmentOf s.selectedFile.filename
          let parentPath := parentPathOf s.selectedFile.filename
          let newEntries :=
            if parentPath ≠ "" then
              match removeChildKey s.fileEntries parentPath fileName with
              | some es => es
              | none => s.fileEntries
            else s.fileEntries.remove fileName
          ({ s with
              fileEntries := newEntries,
              selectedFile := ⟨"", "", "plaintext", false⟩,
              editedFiles := removeA s.editedFiles s.selectedFile.filename,
              logs := s.logs ++ [deletedLog s.selectedFile.filename] },
           disk')

/-! ## Ignore matcher, gitignore loading and directory scanning
(`isIgnored` in FileExplorerContext.tsx lines 60-63; `loadGitignore`,
`scanDirectory`, `handleDirectoryPick` in FileExplorer.tsx lines 545-621) -/

/-- Modelled from the spec: the matcher of the third-party `ignore`
package used by `isIgnored` (the package is not part of src).  Following
spec section 4.1 and restricted to literal patterns without glob
wildcards — which covers every pattern set arising in the claims — a
pattern without a path separator matches any segment of the path (so it
matches at any depth, and matching a directory segment ignores the whole
subtree), and a pattern containing a separator matches the whole path or
a leading directory prefix of it. -/
def ignoreMatches (pat : String) (path : String) : Bool :=
  if jsContainsChar pat '/' then pat == path || jsStartsWith path (pat ++ "/")
  else (jsSplitStr '/' path).contains pat

/-- `isIgnored` (FileExplorerContext.tsx lines 60-63), with the `ignore`
package's rule — modelled from the spec — that a leading exclamation mark
negates an earlier match and the last matching pattern decides. -/
def isIgnored (patterns : List String) (path : String) : Bool :=
  patterns.foldl
    (fun acc pat =>
      if jsStartsWith pat "!" then
        if ignoreMatches (String.mk (pat.data.drop 1)) path then false else acc
      else
        if ignoreMatches pat path then true else acc)
    false

mutual

/-- A node of the granted directory subtree as the filesystem capability
presents it: a file whose `getFile().text()` yields the content (`none`
models a read that throws), or a directory whose `entries()` enumeration
either throws (`fail = some msg`) or yields the `FSEntries` name/node
sequence in order. -/
inductive FSNode where
  | file (content : Option String)
  | dir (fail : Option String) (entries : FSEntries)

/-- The name/node sequence a directory enumeration yields: an association
list inlined as an inductive mutual with `FSNode`, so that the scanner
below is structurally recursive. -/
inductive FSEntries where
  | nil
  | cons (name : String) (node : FSNode) (rest : FSEntries)

end

/-- The `path ? path/name : name` full-path construction of
`scanDirectory`. -/
def joinPath (path : String) (name : String) : String :=
  if path = "" then name else path ++ "/" ++ name

/-- `isTextFile` (FileExplorer.tsx lines 448-456): the read succeeds and
yields a string; a read that throws classifies the entry as non-text. -/
def isTextFile (content : Option String) : Bool :=
  content.isSome

/-- `dirHandle.getFileHandle(gitignore)` followed by the text read inside
`loadGitignore`: the content if a `.gitignore` file entry exists and its
read succeeds, `none` otherwise (every failure is caught and ignored). -/
def getGitignoreContent : FSEntries → Option String
  | FSEntries.nil => none
  | FSEntries.cons n (FSNode.file c) rest =>
    if n = ".gitignore" then c else getGitignoreContent rest
  | FSEntries.cons n (FSNode.dir _ _) rest =>
    if n = ".gitignore" then none else getGitignoreContent rest

/-- The pattern parsing of `loadGitignore` (FileExplorer.tsx lines
545-560): split on newlines, trim, drop blank lines and comment lines. -/
def parseGitignore (content : String) : List String :=
  ((jsSplitStr '\n' content).map trimJS).filter
    (fun l => l != "" && !(jsStartsWith l "#"))

/-- `loadGitignore` (FileExplorer.tsx lines 545-560) as a function on the
`gitignorePatterns` state: `setGitignorePatterns(patterns)` replaces the
stored pattern list; when no `.gitignore` is found (or its read throws)
the state is left unchanged. -/
def loadGitignore (current : List String) : FSNode → List String
  | FSNode.file _ => current
  | FSNode.dir _ es =>
    match getGitignoreContent es with
    | none => current
    | some content => parseGitignore content

/-- `scanDirectory` (FileExplorer.tsx lines 562-598) over the listed
entries of one directory.  `frozen` is the pattern list the `isIgnored`
closure captured when the running handler's render was produced — React
state setters do not update a running closure, so every `isIgnored` call
of one pick uses this one list.  `pend` is the `gitignorePatterns` state
as updated so far by the `setGitignorePatterns` calls of the nested
`loadGitignore`s; it is threaded through and returned even when the
enumeration throws, because setter calls made before the throw stay
applied.  Dotfiles are skipped first, then ignored paths; files are kept
when the text probe succeeds; each subdirectory is scanned recursively
(an enumeration failure propagates) and its `.gitignore` is loaded after
the recursive scan returns. -/
def scanEntries (frozen : List String) (path : String) :
    FSEntries → List String → Except String EntryMap × List String
  | FSEntries.nil, pend => (.ok EntryMap.nil, pend)
  | FSEntries.cons name node rest, pend =>
    if jsStartsWith name "." then scanEntries frozen path rest pend
    else if isIgnored frozen (joinPath path name) then
      scanEntries frozen path rest pend
    else
      match node with
      | FSNode.file c =>
        if isTextFile c then
          match scanEntries frozen path rest pend with
          | (.error m, p') => (.error m, p')
          | (.ok es, p') =>
            (.ok (EntryMap.cons (joinPath path name)
                (FileEntry.mk (joinPath path name) (joinPath path name)
                  EntryType.file name EntryMap.nil) es), p')
        else scanEntries frozen path rest pend
      | FSNode.dir fail subEntries =>
        match fail with
        | some m => (.error m, pend)
        | none =>
          match scanEntries frozen (joinPath path name) subEntries pend with
          | (.error m, p') => (.error m, p')
          | (.ok sub, p') =>
            match scanEntries frozen path rest
                (loadGitignore p' (FSNode.dir none subEntries)) with
            | (.error m, p₃) => (.error m, p₃)
            | (.ok es, p₃) =>
              (.ok (EntryMap.cons (joinPath path name)
                  (FileEntry.mk (joinPath path name) (joinPath path name)
                    EntryType.directory name sub) es), p₃)

/-- `scanDirectory(handle)` on the granted root. -/
def scanDirectory (frozen : List String) (root : FSNode) (pend : List String) :
    Except String EntryMap × List String :=
  match root with
  | FSNode.file _ => (.ok EntryMap.nil, pend)
  | FSNode.dir fail es =>
    match fail with
    | some m => (.error m, pend)
    | none => scanEntries frozen "" es pend

def pickOkLog : String := "✅ ディレクトリ選択完了"

def pickErrLog (m : String) : String := "❌ エラー: " ++ m

/-- `handleDirectoryPick` (FileExplorer.tsx lines 611-621): `pick` is the
`showDirectoryPicker` outcome.  On success the handler logs, loads the
root `.gitignore` (a state update that the already-captured `isIgnored`
closure does not see), scans with the render-time pattern list
`s.gitignorePatterns`, and commits the scanned entries; any throw from
the picker or the traversal is caught, logged, and leaves `fileEntries`
untouched. -/
def handleDirectoryPick (s : State) (pick : Except String FSNode) : State :=
  match pick with
  | .error m => log s (pickErrLog m)
  | .ok root =>
    let pend₁ := loadGitignore s.gitignorePatterns root
    match scanDirectory s.gitignorePatterns root pend₁ with
    | (.error m, p₂) =>
      { s with
        gitignorePatterns := p₂,
        logs := s.logs ++ [pickOkLog, pickErrLog m] }
    | (.ok entries, p₂) =>
      { s with
        fileEntries := entries,
        gitignorePatterns := p₂,
        logs := s.logs ++ [pickOkLog] }

/-! ## Move (`handleMove`, FileExplorer.tsx lines 882-963) -/

def moveTriggerLog (dragIds : List String) (parentId : Option String)
    (index : Nat) : String :=
  "🔍 onMove triggered: dragIds=" ++ toString dragIds ++ ", parentId=" ++
    parentId.getD "null" ++ ", index=" ++ toString index

def moveNotFoundLog (p : String) : String :=
  "❌ 移動元のファイルが見つかりません: " ++ p

def moveBadTargetLog (p : String) : String :=
  "❌ 移動先のディレクトリが見つかりません: " ++ p

def moveErrLog (m : String) : String :=
  "❌ ファイル移動エラー: " ++ m

def movedLog (fromPath toPath : String) : String :=
  "✅ ファイルを移動しました: " ++ fromPath ++ " → " ++ toPath

/-- The `deleteEntry` helper inside `handleMove` (lines 924-936): walk the
(cloned) entry map, delete the first binding whose key equals the path,
descending into directory children; the flag reports whether a binding was
deleted. -/
def deleteEntryByKey : EntryMap → String → EntryMap × Bool
  | EntryMap.nil, _ => (EntryMap.nil, false)
  | EntryMap.cons k (FileEntry.mk h pa ty nm ch) rest, p =>
    if k = p then (rest, true)
    else if ty = EntryType.directory then
      match deleteEntryByKey ch p with
      | (ch', true) => (EntryMap.cons k (FileEntry.mk h pa ty nm ch') rest, true)
      | (_, false) =>
        match deleteEntryByKey rest p with
        | (rest', b) => (EntryMap.cons k (FileEntry.mk h pa ty nm ch) rest', b)
    else
      match deleteEntryByKey rest p with
      | (rest', b) => (EntryMap.cons k (FileEntry.mk h pa ty nm ch) rest', b)

/-- In-place update of the first entry `findEntryByPath` would return:
same traversal order, applying `f` to the found entry. -/
def updateFirstAtPath :
    EntryMap → String → (FileEntry → FileEntry) → Option EntryMap
  | EntryMap.nil, _, _ => none
  | EntryMap.cons k (FileEntry.mk h pa ty nm ch) rest, p, f =>
    if pa = p then some (EntryMap.cons k (f (FileEntry.mk h pa ty nm ch)) rest)
    else if ty = EntryType.directory then
      match updateFirstAtPath ch p f with
      | some ch' => some (EntryMap.cons k (FileEntry.mk h pa ty nm ch') rest)
      | none =>
        match updateFirstAtPath rest p f with
        | some rest' => some (EntryMap.cons k (FileEntry.mk h pa ty nm ch) rest')
        | none => none
    else
      match updateFirstAtPath rest p f with
      | some rest' => some (EntryMap.cons k (FileEntry.mk h pa ty nm ch) rest')
      | none => none

/-- `target.children[newName] = newEntry` on the entry `findEntryByPath`
resolved. -/
def insertChild (e : FileEntry) (key : String) (child : FileEntry) : FileEntry :=
  match e with
  | FileEntry.mk h pa ty nm ch => FileEntry.mk h pa ty nm (ch.set key child)

/-- `handleMove` (FileExplorer.tsx lines 882-963).  `wr` is the outcome of
the copy (`getFileHandle(create)` / `createWritable` / `write` / `close`);
on failure the catch logs and the created empty file remains on disk.
`pickedDir` is the handle a `showDirectoryPicker` fallback would grant
when `parentId` is null (the root grant, modelled as the empty path).
`dragIds[0]` on an empty drag list is modelled as the empty string (no
scanned entry carries an empty path, matching `undefined` never resolving).
The feature-detected `parentDir.handle.removeEntry` is modelled as always
available. -/
def handleMove (s : State) (disk : Disk) (dragIds : List String)
    (parentId : Option String) (index : Nat) (wr : Except String Unit)
    (pickedDir : String) : State × Disk :=
  let s₀ := log s (moveTriggerLog dragIds parentId index)
  let dragId := dragIds.headD ""
  match findEntryByPath s.fileEntries dragId with
  | none => (log s₀ (moveNotFoundLog dragId), disk)
  | some se =>
    if se.type ≠ EntryType.file then (log s₀ (moveNotFoundLog dragId), disk)
    else
      let target? := match parentId with
        | some pid => findEntryByPath s.fileEntries pid
        | none => none
      let badTarget := match parentId with
        | none => false
        | some _ =>
          match target? with
          | none => true
          | some t => decide (t.type ≠ EntryType.directory)
      if badTarget then
        (log s₀ (moveBadTargetLog (parentId.getD "")), disk)
      else
        let newName := se.name
        let newPath := match parentId with
          | some pid => pid ++ "/" ++ newName
          | none => newName
        if newPath = dragId then (s₀, disk)
        else
          match diskRead disk se.handle with
          | none => (log s₀ (moveErrLog "read"), disk)
          | some content =>
            let targetDirHandle := match target? with
              | some t => t.handle
              | none => pickedDir
            let newFileHandle := joinPath targetDirHandle newName
            match wr with
            | .error m =>
              (log s₀ (moveErrLog m), diskWrite disk newFileHandle "")
            | .ok _ =>
              let disk₁ := diskWrite disk newFileHandle content
              let parentPath := parentPathOf dragId
              let disk₂ := match findEntryByPath s.fileEntries parentPath with
                | some pd => diskRemove disk₁ (joinPath pd.handle newName)
                | none => disk₁
              let cloned := (deleteEntryByKey s.fileEntries dragId).1
              let newEntry :=
                FileEntry.mk newFileHandle newPath EntryType.file newName
                  EntryMap.nil
              let entries₂ := match parentId with
                | none => cloned.set newName newEntry
                | some pid =>
                  match findEntryByPath cloned pid with
                  | some t =>
                    if t.type = EntryType.directory then
                      match updateFirstAtPath cloned pid
                          (fun e => insertChild e newName newEntry) with
                      | some es => es
                      | none => cloned
                    else cloned.set newName newEntry
                  | none => cloned.set newName newEntry
              let s₁ := { s₀ with fileEntries := entries₂ }
              let s₂ :=
                if s.selectedFile.filename = dragId then
                  { s₁ with selectedFile :=
                    { s.selectedFile with filename := newPath } }
                else s₁
              (log s₂ (movedLog dragId newPath), disk₂)

/-- The scenario root of the gitignore claim: `a.ts`, a `.gitignore`
whose content is `b.ts`, then `b.ts` and `c.py`. -/
def c1Root : FSNode :=
  FSNode.dir none
    (FSEntries.cons "a.ts" (FSNode.file (some "const a = 1"))
      (FSEntries.cons ".gitignore" (FSNode.file (some "b.ts"))
        (FSEntries.cons "b.ts" (FSNode.file (some "const b = 2"))
          (FSEntries.cons "c.py" (FSNode.file (some "print(1)")) FSEntries.nil))))

/-- A fresh session: no entries, empty selection, no buffers, no
gitignore patterns, no logs. -/
def freshState : State :=
  ⟨EntryMap.nil, ⟨"", "", "plaintext", false⟩, [], [], []⟩

/-- The scenario tree of the move claim: directories `a` (holding the
file `a/x.md`, with the scan's full-path child keys) and `b` (empty). -/
def c5Tree : EntryMap :=
  EntryMap.cons "a"
    (FileEntry.mk "a" "a" EntryType.directory "a"
      (EntryMap.cons "a/x.md"
        (FileEntry.mk "a/x.md" "a/x.md" EntryType.file "x.md" EntryMap.nil)
        EntryMap.nil))
    (EntryMap.cons "b"
      (FileEntry.mk "b" "b" EntryType.directory "b" EntryMap.nil)
      EntryMap.nil)

/-- The move-scenario state: `a/x.md` selected with live code `c`. -/
def c5State (c : String) : State :=
  ⟨c5Tree, ⟨"a/x.md", c, "markdown", true⟩,
   [("a/x.md", ⟨c, "markdown", true⟩)], [], []⟩

/-- The scenario tree of the delete claim: directory `dir` holding the
file `dir/f.go`, keyed by its full path as `scanDirectory` builds it. -/
def c6Tree : EntryMap :=
  EntryMap.cons "dir"
    (FileEntry.mk "dir" "dir" EntryType.directory "dir"
      (EntryMap.cons "dir/f.go"
        (FileEntry.mk "dir/f.go" "dir/f.go" EntryType.file "f.go" EntryMap.nil)
        EntryMap.nil))
    EntryMap.nil

/-- The delete-scenario state: `dir/f.go` selected and carrying a pending
EditBuffer. -/
def c6State : State :=
  ⟨c6Tree, ⟨"dir/f.go", "package main", "go", true⟩,
   [("dir/f.go", ⟨"package main", "go", true⟩)], [], []⟩

/-! ## Tree presentation adapter (`convertToTreeData`, FileExplorer.tsx lines 821-873) -/

/-- The `TreeNode` interface (FileExplorer.tsx lines 441-446).  File nodes
carry no `children` field in the source; the empty list stands for that
here (`buildTree` never gives a file node children). -/
inductive TreeNode where
  | mk (id : String) (name : String) (type : EntryType)
       (children : List TreeNode)

/-- The sort comparator of `convertToTreeData` (lines 827-832 and
865-870) as a `should come first or equal` relation: directories before
files, and within one kind ascending name order (`localeCompare` modelled
as code-point order). -/
def entryLE (a b : FileEntry) : Bool :=
  if a.type = b.type then decide (a.name ≤ b.name)
  else decide (a.type = EntryType.directory)

mutual

/-- `buildTree` (lines 822-860).  The source sorts
`Object.values(entry.children)` with the comparator and then maps
`buildTree` over the sorted list; here each child is paired with its
built node first and the pairs are sorted by the comparator on the entry
component — the comparator reads only the entry, so the stable
`mergeSort` (JS `sort` is stable) orders the pairs exactly as it would
order the entries, and the recursion stays structural.  A directory whose
filtered children list is empty yields `none` and is omitted. -/
def buildTree : FileEntry → Option TreeNode
  | FileEntry.mk _ p ty nm ch =>
    match ty with
    | EntryType.directory =>
      match ((buildChildren ch).mergeSort
          (fun x y => entryLE x.1 y.1)).filterMap Prod.snd with
      | [] => none
      | c :: cs => some (TreeNode.mk p nm EntryType.directory (c :: cs))
    | EntryType.file => some (TreeNode.mk p nm EntryType.file [])

def buildChildren : EntryMap → List (FileEntry × Option TreeNode)
  | EntryMap.nil => []
  | EntryMap.cons _ e rest => (e, buildTree e) :: buildChildren rest

end

/-- `convertToTreeData` (lines 821-873): root-level entries (no slash in
the path), sorted with the comparator, built and filtered of `null`s.  A
pure function of the entry map. -/
def convertToTreeData (entries : EntryMap) : List TreeNode :=
  (((entries.values.filter
      (fun e => !(jsContainsChar e.path '/'))).mergeSort entryLE).map
        buildTree).filterMap id

mutual

/-- The property the claim states, as an executable check: no node, at
any depth, is a directory node with an empty children list. -/
def nodeOk : TreeNode → Bool
  | TreeNode.mk _ _ ty ch =>
    (if ty = EntryType.directory then !ch.isEmpty else true) && forestOk ch

def forestOk : List TreeNode → Bool
  | [] => true
  | n :: ns => nodeOk n && forestOk ns

end

/-! ## `removeImports` (src/unnamed/part_001)

The source is one JavaScript statement:
`code.replace(re, empty)` with the regex `import` + backslash-s + `.*` +
`from` + backslash-s + `.*` + optional semicolon + end, global and
multiline.  Its semantics, embedded below:

* ECMAScript line terminators are LF, CR, U+2028 and U+2029.  With the
  multiline flag `^` matches at the input start and after any terminator
  character, `$` matches at the input end and before any terminator
  character, and `.` matches everything except a terminator.  A *line*
  (a segment) is therefore a maximal terminator-free run; each single
  terminator character separates two segments, so CRLF encloses an empty
  segment between the CR and the LF.  `splitSegs` splits the input into
  its segments while keeping each separator character.
* Every match starts at a segment start (the caret) and — because
  `.*;?$` always reaches the end of whatever segment the engine is on —
  ends at a segment end.  The two whitespace classes of the pattern
  contain all four terminators, so each of them can consume one
  separator: the first one exactly when the segment is `import`, the
  second one exactly when the `from` the engine picked is a suffix of
  its segment.  The engine's greedy `.*` picks the rightmost `from`
  followed by whitespace (or by the separator when a further segment
  exists), so a match covers one, two or three whole segments;
  `matchExtent` returns how many segments beyond the first are consumed
  (`none`: no match at this segment start).
* Replacing a match with the empty string deletes the covered segments'
  content and the separators between them, leaving one empty segment
  bounded by the surrounding separators, and the global scan resumes
  after the match. -/

/-- The ECMAScript line terminators: LF, CR, U+2028, U+2029. -/
def jsLineTerminator (c : Char) : Bool :=
  c == '\n' || c == '\r' || c.toNat == 0x2028 || c.toNat == 0x2029

/-- Split into the head segment and the (separator, segment) pairs after
it; segments contain no terminator character. -/
def splitSegs : List Char → List Char × List (Char × List Char)
  | [] => ([], [])
  | c :: rest =>
    if jsLineTerminator c then
      ([], (c, (splitSegs rest).1) :: (splitSegs rest).2)
    else
      (c :: (splitSegs rest).1, (splitSegs rest).2)

/-- All segments of a split input, head first. -/
def allSegs (sp : List Char × List (Char × List Char)) : List (List Char) :=
  sp.1 :: sp.2.map Prod.snd

/-- Join the segments back around their separators (the inverse of
`splitSegs`). -/
def joinSegs : List Char → List (Char × List Char) → List Char
  | h, [] => h
  | h, (s, l) :: p => h ++ s :: joinSegs l p

def importLit : List Char := ['i', 'm', 'p', 'o', 'r', 't']

/-- The segment begins with `import` followed by one whitespace
character (the regex prefix matched inside a single segment; segments
hold no terminator, so this whitespace is an in-line one). -/
def startsImportWs : List Char → Bool
  | 'i' :: 'm' :: 'p' :: 'o' :: 'r' :: 't' :: c :: _ => jsWhitespace c
  | _ => false

/-- Some position of the segment starts `from` followed by a whitespace
character (again in-line, since segments hold no terminator). -/
def hasFromWs : List Char → Bool
  | [] => false
  | c :: rest =>
    (match c, rest with
     | 'f', 'r' :: 'o' :: 'm' :: d :: _ => jsWhitespace d
     | _, _ => false) || hasFromWs rest

/-- The segment ends with the four characters `from`. -/
def endsWithFrom (l : List Char) : Bool :=
  ['f', 'r', 'o', 'm'].isSuffixOf l

/-- How many segments beyond `l` the match starting at `l`'s segment
start consumes, `none` when the regex does not match there.  `rest`
holds the following (separator, segment) pairs: a whitespace class can
only consume a separator when a further segment exists, and any of the
four terminators is whitespace, so only the presence of the pairs
matters, never which separator they carry. -/
def matchExtent (l : List Char) (rest : List (Char × List Char)) : Option Nat :=
  if l = importLit then
    match rest with
    | [] => none
    | (_, n) :: rest2 =>
      if endsWithFrom n && !rest2.isEmpty then some 2
      else if hasFromWs n then some 1
      else none
  else if startsImportWs l then
    if endsWithFrom l && !rest.isEmpty then some 1
    else if hasFromWs (l.drop 7) then some 0
    else none
  else none

/-- The global replace at the segment level: at each segment start try
the match; on a match the covered segments collapse to one empty segment
(the separators inside the match disappear, the boundary ones stay) and
the scan resumes after the match.  `matchExtent` returns an extent only
when that many following segments exist, so in the short cases the
larger extents reduce to consuming whatever tail is there. -/
def removeImportsSegs : List Char → List (Char × List Char) →
    List Char × List (Char × List Char)
  | l, [] =>
    match matchExtent l [] with
    | none => (l, [])
    | some _ => ([], [])
  | l, [(s₁, l₁)] =>
    match matchExtent l [(s₁, l₁)] with
    | none =>
      (l, (s₁, (removeImportsSegs l₁ []).1) :: (removeImportsSegs l₁ []).2)
    | some 0 =>
      ([], (s₁, (removeImportsSegs l₁ []).1) :: (removeImportsSegs l₁ []).2)
    | some _ => ([], [])
  | l, [(s₁, l₁), (s₂, l₂)] =>
    match matchExtent l [(s₁, l₁), (s₂, l₂)] with
    | none =>
      (l, (s₁, (removeImportsSegs l₁ [(s₂, l₂)]).1) ::
        (removeImportsSegs l₁ [(s₂, l₂)]).2)
    | some 0 =>
      ([], (s₁, (removeImportsSegs l₁ [(s₂, l₂)]).1) ::
        (removeImportsSegs l₁ [(s₂, l₂)]).2)
    | some 1 =>
      ([], (s₂, (removeImportsSegs l₂ []).1) :: (removeImportsSegs l₂ []).2)
    | some _ => ([], [])
  | l, (s₁, l₁) :: (s₂, l₂) :: (s₃, l₃) :: rest =>
    match matchExtent l ((s₁, l₁) :: (s₂, l₂) :: (s₃, l₃) :: rest) with
    | none =>
      (l, (s₁, (removeImportsSegs l₁ ((s₂, l₂) :: (s₃, l₃) :: rest)).1) ::
        (removeImportsSegs l₁ ((s₂, l₂) :: (s₃, l₃) :: rest)).2)
    | some 0 =>
      ([], (s₁, (removeImportsSegs l₁ ((s₂, l₂) :: (s₃, l₃) :: rest)).1) ::
        (removeImportsSegs l₁ ((s₂, l₂) :: (s₃, l₃) :: rest)).2)
    | some 1 =>
      ([], (s₂, (removeImportsSegs l₂ ((s₃, l₃) :: rest)).1) ::
        (removeImportsSegs l₂ ((s₃, l₃) :: rest)).2)
    | some _ =>
      ([], (s₃, (removeImportsSegs l₃ rest).1) :: (removeImportsSegs l₃ rest).2)

/-- `removeImports` (src/unnamed/part_001, lines 2-4). -/
def removeImports (code : String) : String :=
  String.mk (joinSegs
    (removeImportsSegs (splitSegs code.data).1 (splitSegs code.data).2).1
    (removeImportsSegs (splitSegs code.data).1 (splitSegs code.data).2).2)

/-- A whole line matching the regex within that one line: the behaviour
the claim ascribes to every matched line (applied to terminator-free
segments, so the whitespace after `import` and after `from` is an
in-line one, as the real `.*` requires). -/
def importLineMatches (l : List Char) : Bool :=
  startsImportWs l && hasFromWs (l.drop 7)

/-- The per-line transformation the claim describes: empty exactly the
whole-line matches, keep every other line. -/
def lineWise (l : List Char) : List Char :=
  if importLineMatches l then [] else l

/-- The function the claim describes: delete the content of exactly the
whole-line import matches, preserving the line structure (all
separators and every other segment's content kept). -/
def removeImportsLinewise (code : String) : String :=
  String.mk (joinSegs (lineWise (splitSegs code.data).1)
    ((splitSegs code.data).2.map (fun q => (q.1, lineWise q.2))))

theorem jsSplit_ne_nil (sep : Char) (cs : List Char) : jsSplit sep cs ≠ [] := by
  cases cs with
  | nil => simp [jsSplit]
  | cons c rest =>
    simp only [jsSplit]
    cases h : jsSplit sep rest with
    | nil => simp
    | cons g gs =>
      by_cases hc : c = sep <;> simp [hc]

theorem jsSplit_of_not_mem {sep : Char} {cs : List Char} (h : sep ∉ cs) :
    jsSplit sep cs = [cs] := by
  induction cs with
  | nil => simp [jsSplit]
  | cons c rest ih =>
    have hc : c ≠ sep := fun he => h (by simp [he])
    have hr : sep ∉ rest := fun hm => h (by simp [hm])
    simp [jsSplit, ih hr, hc]

theorem jsSplit_two_of_mem {sep : Char} :
    ∀ {cs : List Char}, sep ∈ cs → 2 ≤ (jsSplit sep cs).length := by
  intro cs
  induction cs with
  | nil => intro h; simp at h
  | cons c rest ih =>
    intro h
    simp only [jsSplit]
    cases hs : jsSplit sep rest with
    | nil => exact absurd hs (jsSplit_ne_nil _ _)
    | cons g gs =>
      by_cases hc : c = sep
      · simp [hc]
      · have hm : sep ∈ rest := by
          cases h with
          | head => exact absurd rfl hc
          | tail _ hm => exact hm
        have := ih hm
        rw [hs] at this
        simp only [List.length_cons] at this
        simp [hc]
        omega

theorem lastDotSegment_of_not_mem {cs : List Char} (h : '.' ∉ cs) :
    lastDotSegment cs = cs := by
  induction cs with
  | nil => rfl
  | cons c rest ih =>
    have hc : c ≠ '.' := fun he => h (by simp [he])
    have hr : '.' ∉ rest := fun hm => h (by simp [hm])
    simp [lastDotSegment, hr, hc, ih hr]

theorem lastGroup_jsSplit_dot (cs : List Char) :
    lastGroup (jsSplit '.' cs) = lastDotSegment cs := by
  induction cs with
  | nil => rfl
  | cons c rest ih =>
    simp only [jsSplit]
    cases hs : jsSplit '.' rest with
    | nil => exact absurd hs (jsSplit_ne_nil _ _)
    | cons g gs =>
      rw [hs] at ih
      by_cases hc : c = '.'
      · -- the dot separates: the last group is decided by `rest`
        by_cases hm : '.' ∈ rest
        · simp only [hc, if_pos rfl, lastGroup]
          rw [ih]
          simp [lastDotSegment, hm, hc]
        · have : jsSplit '.' rest = [rest] := jsSplit_of_not_mem hm
          rw [this] at hs
          cases hs
          simp [lastGroup, lastDotSegment, hm, hc]
      · simp only [if_neg hc]
        cases gs with
        | nil =>
          -- one group: `rest` has no dot
          have hm : '.' ∉ rest := by
            intro hmem
            have : 2 ≤ (jsSplit '.' rest).length := jsSplit_two_of_mem hmem
            rw [hs] at this
            simp at this
          have : jsSplit '.' rest = [rest] := jsSplit_of_not_mem hm
          rw [this] at hs
          cases hs
          simp [lastGroup, lastDotSegment, hm, hc, lastDotSegment_of_not_mem hm]
        | cons g₂ gs₂ =>
          have hm : '.' ∈ rest := by
            by_contra hnm
            have : jsSplit '.' rest = [rest] := jsSplit_of_not_mem hnm
            rw [hs] at this
            simp at this
          calc lastGroup ((c :: g) :: g₂ :: gs₂)
              = lastGroup (g₂ :: gs₂) := by simp [lastGroup]
            _ = lastGroup (g :: g₂ :: gs₂) := by simp [lastGroup]
            _ = lastDotSegment rest := ih
            _ = lastDotSegment (c :: rest) := by simp [lastDotSegment, hm]

/-- Claim C4 (counterexample): for the dotless filename `go` the code
returns the tag `go`, while the claim's description (empty extension for a
dotless name, hence `plaintext`) disagrees: `split`/`pop` yields the whole
filename when no dot occurs, not the empty string. -/
theorem getLanguageFromFileName_ne_classifySpec :
    getLanguageFromFileName "go" = "go" ∧ classifySpec "go" = "plaintext" ∧
      getLanguageFromFileName "go" ≠ classifySpec "go" := by
  refine ⟨by decide, by decide, by decide⟩

/-- Claim C4 (amended): `getLanguageFromFileName` is a pure total function
of the filename; it lowercases the last dot-separated segment (the whole
filename when it contains no dot), looks it up in the fixed table, and
returns `plaintext` for every segment not in the table. -/
theorem getLanguageFromFileName_amended (filename : String) :
    getLanguageFromFileName filename =
      (lookupA languageMap
        (String.mk ((lastDotSegment filename.data).map Char.toLower))).getD "plaintext" := by
  unfold getLanguageFromFileName
  rw [lastGroup_jsSplit_dot]

/-! ## Theorems about the file operations -/

theorem lookupA_setA_self {α : Type} (l : SMap α) (k : String) (v : α) :
    lookupA (setA l k v) k = some v := by
  induction l with
  | nil => simp [setA, lookupA]
  | cons p rest ih =>
    obtain ⟨k', w⟩ := p
    by_cases h : k' = k
    · simp [setA, lookupA, h]
    · simp [setA, lookupA, h, ih]

/-- Evaluation of `loadFile` in the pending-buffer branch. -/
theorem loadFile_of_buffer (s : State) (d : Disk) (p : String) (eb : EditBuffer)
    (h : lookupA s.editedFiles p = some eb) :
    loadFile s d p =
      { s with
        selectedFile := ⟨p, eb.code, eb.language, eb.isModified⟩,
        logs := s.logs ++ [restoredLog p] } := by
  unfold loadFile
  rw [h]

/-- `loadFile` never changes the stored EditBuffers. -/
theorem loadFile_editedFiles (s : State) (d : Disk) (p : String) :
    (loadFile s d p).editedFiles = s.editedFiles := by
  unfold loadFile
  cases hq : lookupA s.editedFiles p with
  | some eb => simp
  | none =>
    cases hf : findEntryByPath s.fileEntries p with
    | none => simp [log]
    | some e =>
      by_cases ht : e.type ≠ EntryType.file
      · simp [ht]
      · cases hr : diskRead d e.handle with
        | none => simp [ht, hr, log]
        | some text => simp [ht, hr]

/-- Claim C2: when `path` has a pending EditBuffer, `loadFile` sets the
Selection to exactly that buffer's fields, the result does not depend on
the disk (no read happens), and the stored buffers are untouched; as a
consequence, editing a file, loading any other file, and loading the first
file again restores the exact unsaved code. -/
theorem loadFile_pending_buffer (s : State) (disk disk' : Disk) (p : String)
    (eb : EditBuffer) (h : lookupA s.editedFiles p = some eb) :
    (loadFile s disk p).selectedFile = ⟨p, eb.code, eb.language, eb.isModified⟩ ∧
    loadFile s disk p = loadFile s disk' p ∧
    (loadFile s disk p).editedFiles = s.editedFiles ∧
    (∀ (s₀ : State) (d₀ : Disk) (q v : String),
      (loadFile (loadFile (handleEditorChange s₀ (some v)) d₀ q) d₀
          s₀.selectedFile.filename).selectedFile.code = v) := by
  refine ⟨?_, ?_, loadFile_editedFiles s disk p, ?_⟩
  · rw [loadFile_of_buffer s disk p eb h]
  · rw [loadFile_of_buffer s disk p eb h, loadFile_of_buffer s disk' p eb h]
  · intro s₀ d₀ q v
    have hbuf :
        lookupA (loadFile (handleEditorChange s₀ (some v)) d₀ q).editedFiles
          s₀.selectedFile.filename = some ⟨v, s₀.selectedFile.language, true⟩ := by
      rw [loadFile_editedFiles]
      simp [handleEditorChange, lookupA_setA_self]
    rw [loadFile_of_buffer _ _ _ _ hbuf]

theorem loadFile_pending_buffer_witness :
    lookupA (State.mk EntryMap.nil ⟨"a.ts", "x", "typescript", true⟩
        [("a.ts", ⟨"edited", "typescript", true⟩)] [] []).editedFiles "a.ts" =
      some ⟨"edited", "typescript", true⟩ ∧
    (loadFile (State.mk EntryMap.nil ⟨"a.ts", "x", "typescript", true⟩
        [("a.ts", ⟨"edited", "typescript", true⟩)] [] []) [("a.ts", "ondisk")]
        "a.ts").selectedFile = ⟨"a.ts", "edited", "typescript", true⟩ :=
  ⟨by decide,
   (loadFile_pending_buffer
      (State.mk EntryMap.nil ⟨"a.ts", "x", "typescript", true⟩
        [("a.ts", ⟨"edited", "typescript", true⟩)] [] [])
      [("a.ts", "ondisk")] [] "a.ts" ⟨"edited", "typescript", true⟩
      (by decide)).1⟩

/-- Claim C3: when the capability write fails, `saveFile` leaves the
Selection (hence its `isModified = true` and its code), the stored
EditBuffer, and the disk exactly as they were, and appends the write error
and the save error to the log; it never marks the buffer clean. -/
theorem saveFile_write_failure (s : State) (disk : Disk) (m : String)
    (e : FileEntry) (eb : EditBuffer)
    (hsel : s.selectedFile.filename ≠ "")
    (hfind : findEntryByPath s.fileEntries s.selectedFile.filename = some e)
    (hty : e.type = EntryType.file)
    (hmod : s.selectedFile.isModified = true)
    (hbuf : lookupA s.editedFiles s.selectedFile.filename = some eb)
    (hbmod : eb.isModified = true) :
    (saveFile s disk (.error m)).1.selectedFile = s.selectedFile ∧
    (saveFile s disk (.error m)).1.selectedFile.isModified = true ∧
    (saveFile s disk (.error m)).1.editedFiles = s.editedFiles ∧
    lookupA (saveFile s disk (.error m)).1.editedFiles s.selectedFile.filename
      = some eb ∧
    (lookupA (saveFile s disk (.error m)).1.editedFiles
        s.selectedFile.filename).map EditBuffer.isModified = some true ∧
    (saveFile s disk (.error m)).2 = disk ∧
    (saveFile s disk (.error m)).1.logs =
      s.logs ++ [writeErrLog m, saveErrLog m] := by
  unfold saveFile
  rw [if_neg hsel, hfind]
  simp [hty, hmod, hbuf, hbmod]

theorem saveFile_write_failure_witness :
    ((saveFile (State.mk (EntryMap.cons "a.ts"
        (FileEntry.mk "a.ts" "a.ts" EntryType.file "a.ts" EntryMap.nil)
        EntryMap.nil)
        ⟨"a.ts", "new code", "typescript", true⟩
        [("a.ts", ⟨"new code", "typescript", true⟩)] [] [])
        [("a.ts", "old")] (.error "denied")).1.selectedFile.isModified = true) ∧
    ((saveFile (State.mk (EntryMap.cons "a.ts"
        (FileEntry.mk "a.ts" "a.ts" EntryType.file "a.ts" EntryMap.nil)
        EntryMap.nil)
        ⟨"a.ts", "new code", "typescript", true⟩
        [("a.ts", ⟨"new code", "typescript", true⟩)] [] [])
        [("a.ts", "old")] (.error "denied")).2 = [("a.ts", "old")]) := by
  have h := saveFile_write_failure
    (State.mk (EntryMap.cons "a.ts"
        (FileEntry.mk "a.ts" "a.ts" EntryType.file "a.ts" EntryMap.nil)
        EntryMap.nil)
      ⟨"a.ts", "new code", "typescript", true⟩
      [("a.ts", ⟨"new code", "typescript", true⟩)] [] [])
    [("a.ts", "old")] "denied"
    (FileEntry.mk "a.ts" "a.ts" EntryType.file "a.ts" EntryMap.nil)
    ⟨"new code", "typescript", true⟩
    (by decide) (by simp [findEntryByPath]) (by rfl) (by rfl) (by rfl) (by rfl)
  exact ⟨h.2.1, h.2.2.2.2.2.1⟩

/-- Claim C7: a successful `saveFile` immediately followed by `loadFile` of
the same path yields a Selection whose code is the code that was saved and
whose `isModified` is false (the reload is served from the EditBuffer the
save stored, so no external state can interfere). -/
theorem save_then_load_roundtrip (s : State) (disk : Disk) (e : FileEntry)
    (hsel : s.selectedFile.filename ≠ "")
    (hfind : findEntryByPath s.fileEntries s.selectedFile.filename = some e)
    (hty : e.type = EntryType.file) :
    ((loadFile (saveFile s disk (.ok ())).1 (saveFile s disk (.ok ())).2
        s.selectedFile.filename).selectedFile.code = s.selectedFile.code) ∧
    ((loadFile (saveFile s disk (.ok ())).1 (saveFile s disk (.ok ())).2
        s.selectedFile.filename).selectedFile.isModified = false) ∧
    ((loadFile (saveFile s disk (.ok ())).1 (saveFile s disk (.ok ())).2
        s.selectedFile.filename).selectedFile.filename =
      s.selectedFile.filename) := by
  have hsave :
      (saveFile s disk (.ok ())).1.editedFiles =
        setA s.editedFiles s.selectedFile.filename
          ⟨s.selectedFile.code, s.selectedFile.language, false⟩ := by
    unfold saveFile
    rw [if_neg hsel, hfind]
    simp [hty]
  have hbuf :
      lookupA (saveFile s disk (.ok ())).1.editedFiles s.selectedFile.filename =
        some ⟨s.selectedFile.code, s.selectedFile.language, false⟩ := by
    rw [hsave]; exact lookupA_setA_self _ _ _
  refine ⟨?_, ?_, ?_⟩ <;>
    · unfold loadFile
      rw [hbuf]

theorem save_then_load_roundtrip_witness :
    ((loadFile
        (saveFile (State.mk (EntryMap.cons "a.ts"
        (FileEntry.mk "a.ts" "a.ts" EntryType.file "a.ts" EntryMap.nil)
        EntryMap.nil)
          ⟨"a.ts", "saved code", "typescript", true⟩ [] [] [])
          [("a.ts", "old")] (.ok ())).1
        (saveFile (State.mk (EntryMap.cons "a.ts"
        (FileEntry.mk "a.ts" "a.ts" EntryType.file "a.ts" EntryMap.nil)
        EntryMap.nil)
          ⟨"a.ts", "saved code", "typescript", true⟩ [] [] [])
          [("a.ts", "old")] (.ok ())).2
        "a.ts").selectedFile.code = "saved code") ∧
    ((loadFile
        (saveFile (State.mk (EntryMap.cons "a.ts"
        (FileEntry.mk "a.ts" "a.ts" EntryType.file "a.ts" EntryMap.nil)
        EntryMap.nil)
          ⟨"a.ts", "saved code", "typescript", true⟩ [] [] [])
          [("a.ts", "old")] (.ok ())).1
        (saveFile (State.mk (EntryMap.cons "a.ts"
        (FileEntry.mk "a.ts" "a.ts" EntryType.file "a.ts" EntryMap.nil)
        EntryMap.nil)
          ⟨"a.ts", "saved code", "typescript", true⟩ [] [] [])
          [("a.ts", "old")] (.ok ())).2
        "a.ts").selectedFile.isModified = false) := by
  have h := save_then_load_roundtrip
    (State.mk (EntryMap.cons "a.ts"
        (FileEntry.mk "a.ts" "a.ts" EntryType.file "a.ts" EntryMap.nil)
        EntryMap.nil)
      ⟨"a.ts", "saved code", "typescript", true⟩ [] [] [])
    [("a.ts", "old")]
    (FileEntry.mk "a.ts" "a.ts" EntryType.file "a.ts" EntryMap.nil)
    (by decide) (by simp [findEntryByPath]) (by rfl)
  exact ⟨h.1, h.2.1⟩


/-- Claim C1: on the first pick of a fresh session, scanning the root
that holds `a.ts`, a `.gitignore` whose content is `b.ts`, `b.ts` and
`c.py` yields entries for all three of `a.ts`, `b.ts` and `c.py` — the
claim's expected exclusion of `b.ts` does not happen, because the
`isIgnored` closure the handler captured still reads the pattern state of
the render that preceded the pick (empty on a fresh session) and the
`setGitignorePatterns` call inside the same pick cannot reach it.  The
loaded patterns do land in the state, so only the next pick excludes
`b.ts`. -/
theorem handleDirectoryPick_gitignore_same_pick :
    (handleDirectoryPick freshState (.ok c1Root)).fileEntries.keys =
      ["a.ts", "b.ts", "c.py"] ∧
    (handleDirectoryPick freshState (.ok c1Root)).gitignorePatterns = ["b.ts"] ∧
    (handleDirectoryPick (handleDirectoryPick freshState (.ok c1Root))
        (.ok c1Root)).fileEntries.keys = ["a.ts", "c.py"] := by
  refine ⟨by decide, by decide, by decide⟩

/-- Claim C8: if the picker grant throws, or the traversal after it
throws, `handleDirectoryPick` reports the error to the log and leaves the
previously-scanned entry map exactly as it was. -/
theorem handleDirectoryPick_failure (s : State) (pick : Except String FSNode) :
    (∀ m, pick = .error m →
      (handleDirectoryPick s pick).fileEntries = s.fileEntries ∧
      (handleDirectoryPick s pick).logs = s.logs ++ [pickErrLog m]) ∧
    (∀ root m p₂, pick = .ok root →
      scanDirectory s.gitignorePatterns root
          (loadGitignore s.gitignorePatterns root) = (.error m, p₂) →
      (handleDirectoryPick s pick).fileEntries = s.fileEntries ∧
      (handleDirectoryPick s pick).logs = s.logs ++ [pickOkLog, pickErrLog m]) := by
  constructor
  · intro m hm
    subst hm
    exact ⟨rfl, rfl⟩
  · intro root m p₂ hr hscan
    subst hr
    unfold handleDirectoryPick
    simp only [hscan]
    exact ⟨trivial, trivial⟩

theorem handleDirectoryPick_failure_witness :
    ((handleDirectoryPick freshState (.error "denied")).fileEntries =
        freshState.fileEntries ∧
      (handleDirectoryPick freshState (.error "denied")).logs =
        freshState.logs ++ [pickErrLog "denied"]) ∧
    ((handleDirectoryPick freshState
          (.ok (FSNode.dir (some "EPERM") FSEntries.nil))).fileEntries =
        freshState.fileEntries ∧
      (handleDirectoryPick freshState
          (.ok (FSNode.dir (some "EPERM") FSEntries.nil))).logs =
        freshState.logs ++ [pickOkLog, pickErrLog "EPERM"]) :=
  ⟨(handleDirectoryPick_failure freshState (.error "denied")).1 "denied" rfl,
   (handleDirectoryPick_failure freshState
      (.ok (FSNode.dir (some "EPERM") FSEntries.nil))).2
      (FSNode.dir (some "EPERM") FSEntries.nil) "EPERM" [] rfl (by rfl)⟩


/-- Claim C5: moving `a/x.md` into the existing directory `b` leaves a
tree in which an entry with path `b/x.md` (a file) is present and `a/x.md`
is absent, the Selection — which was `a/x.md` — now points to `b/x.md`
with its code buffer unchanged, and the disk holds the content under the
new path only. -/
theorem handleMove_into_directory (c : String) :
    ((findEntryByPath (handleMove (c5State c) [("a/x.md", "body")] ["a/x.md"]
        (some "b") 0 (.ok ()) "").1.fileEntries "b/x.md").map FileEntry.path =
      some "b/x.md") ∧
    ((findEntryByPath (handleMove (c5State c) [("a/x.md", "body")] ["a/x.md"]
        (some "b") 0 (.ok ()) "").1.fileEntries "b/x.md").map FileEntry.type =
      some EntryType.file) ∧
    (findEntryByPath (handleMove (c5State c) [("a/x.md", "body")] ["a/x.md"]
        (some "b") 0 (.ok ()) "").1.fileEntries "a/x.md" = none) ∧
    ((handleMove (c5State c) [("a/x.md", "body")] ["a/x.md"]
        (some "b") 0 (.ok ()) "").1.selectedFile.filename = "b/x.md") ∧
    ((handleMove (c5State c) [("a/x.md", "body")] ["a/x.md"]
        (some "b") 0 (.ok ()) "").1.selectedFile.code = c) ∧
    ((handleMove (c5State c) [("a/x.md", "body")] ["a/x.md"]
        (some "b") 0 (.ok ()) "").2 = [("b/x.md", "body")]) :=
  ⟨rfl, rfl, rfl, rfl, rfl, rfl⟩

/-- Claim C6: deleting the selected nested file `dir/f.go` clears its
EditBuffer, empties the Selection and removes the file from the disk, but
the entry map is left completely unchanged — `dir/f.go` is still found in
`dir`'s children.  The code deletes the key `f.go` (the bare name) while
`scanDirectory` keys children by full path (`dir/f.go`), so the `delete`
is a no-op on a scanned tree and the claim's tree-removal does not
happen. -/
theorem handleDeleteFile_nested_keeps_entry :
    ((findEntryByPath (handleDeleteFile c6State [("dir/f.go", "x")] true
        (.ok ())).1.fileEntries "dir/f.go").isSome = true) ∧
    ((handleDeleteFile c6State [("dir/f.go", "x")] true (.ok ())).1.fileEntries =
      c6Tree) ∧
    ((handleDeleteFile c6State [("dir/f.go", "x")] true (.ok ())).1.editedFiles =
      []) ∧
    ((handleDeleteFile c6State [("dir/f.go", "x")] true (.ok ())).1.selectedFile =
      ⟨"", "", "plaintext", false⟩) ∧
    ((handleDeleteFile c6State [("dir/f.go", "x")] true (.ok ())).2 = []) :=
  ⟨rfl, rfl, rfl, rfl, rfl⟩

/-! ## Theorems about the tree presentation adapter -/

theorem forestOk_eq_all (l : List TreeNode) : forestOk l = l.all nodeOk := by
  induction l with
  | nil => rfl
  | cons n ns ih => simp [forestOk, ih]

theorem buildChildren_mem :
    ∀ (ch : EntryMap) (x : FileEntry × Option TreeNode),
      x ∈ buildChildren ch → x.2 = buildTree x.1 ∧ sizeOf x.1 < sizeOf ch
  | EntryMap.nil, x, hx => by simp [buildChildren] at hx
  | EntryMap.cons k e rest, x, hx => by
    simp only [buildChildren, List.mem_cons] at hx
    rcases hx with hx | hx
    · subst hx
      refine ⟨rfl, ?_⟩
      simp only [EntryMap.cons.sizeOf_spec]
      omega
    · obtain ⟨h1, h2⟩ := buildChildren_mem rest x hx
      refine ⟨h1, ?_⟩
      simp only [EntryMap.cons.sizeOf_spec]
      omega

theorem buildTree_ok_aux :
    ∀ (k : Nat) (e : FileEntry) (n : TreeNode),
      sizeOf e < k → buildTree e = some n → nodeOk n = true := by
  intro k
  induction k with
  | zero => intro e n he; omega
  | succ k ih =>
    intro e n he hbt
    obtain ⟨h, p, ty, nm, ch⟩ := e
    cases ty with
    | file =>
      simp only [buildTree] at hbt
      cases hbt
      simp [nodeOk, forestOk]
    | directory =>
      simp only [buildTree] at hbt
      cases hcs : ((buildChildren ch).mergeSort
          (fun x y => entryLE x.1 y.1)).filterMap Prod.snd with
      | nil => rw [hcs] at hbt; cases hbt
      | cons c cs =>
        rw [hcs] at hbt
        cases hbt
        have hch : sizeOf ch < sizeOf (FileEntry.mk h p EntryType.directory nm ch) := by
          simp only [FileEntry.mk.sizeOf_spec]
          omega
        have hmem : ∀ m ∈ c :: cs, nodeOk m = true := by
          intro m hm
          rw [← hcs] at hm
          obtain ⟨pair, hpair, hsnd⟩ := List.mem_filterMap.mp hm
          rw [List.mem_mergeSort] at hpair
          obtain ⟨heq, hsize⟩ := buildChildren_mem ch pair hpair
          have : buildTree pair.1 = some m := by rw [← heq, hsnd]
          exact ih pair.1 m (by omega) this
        have hnode : nodeOk (TreeNode.mk p nm EntryType.directory (c :: cs)) =
            forestOk (c :: cs) := by simp [nodeOk]
        rw [hnode, forestOk_eq_all, List.all_eq_true]
        exact hmem

/-- Claim C9: `convertToTreeData` is a pure function of the entry map —
it is a Lean function of `entries` alone — and never emits a directory
node whose children list is empty, at any depth: every directory all of
whose descendants are filtered out is omitted entirely. -/
theorem convertToTreeData_no_empty_dir (entries : EntryMap) :
    forestOk (convertToTreeData entries) = true := by
  rw [forestOk_eq_all, List.all_eq_true]
  intro n hn
  unfold convertToTreeData at hn
  obtain ⟨o, ho, hid⟩ := List.mem_filterMap.mp hn
  obtain ⟨e, he, hbt⟩ := List.mem_map.mp ho
  cases hid
  exact buildTree_ok_aux (sizeOf e + 1) e n (by omega) hbt

/-! ## Theorems about `removeImports` -/

theorem splitSegs_of_no_term :
    ∀ (h : List Char), (∀ c ∈ h, jsLineTerminator c = false) →
      splitSegs h = (h, []) := by
  intro h
  induction h with
  | nil => intro _; rfl
  | cons c h' ih =>
    intro hh
    have hc : jsLineTerminator c = false := hh c (by simp)
    have hrec := ih (fun d hd => hh d (List.mem_cons_of_mem c hd))
    simp [splitSegs, hc, hrec]

theorem splitSegs_no_term :
    ∀ (cs : List Char),
      (∀ c ∈ (splitSegs cs).1, jsLineTerminator c = false) ∧
      (∀ q ∈ (splitSegs cs).2, jsLineTerminator q.1 = true ∧
        ∀ c ∈ q.2, jsLineTerminator c = false) := by
  intro cs
  induction cs with
  | nil => exact ⟨by simp [splitSegs], by simp [splitSegs]⟩
  | cons c rest ih =>
    by_cases hc : jsLineTerminator c = true
    · constructor
      · simp [splitSegs, hc]
      · intro q hq
        simp only [splitSegs, hc, if_pos] at hq
        rcases List.mem_cons.mp hq with hq | hq
        · subst hq
          exact ⟨hc, ih.1⟩
        · exact ih.2 q hq
    · have hc' : jsLineTerminator c = false := by
        cases h : jsLineTerminator c
        · rfl
        · exact absurd h hc
      constructor
      · intro d hd
        simp only [splitSegs, hc, if_neg, if_false] at hd
        rcases List.mem_cons.mp hd with hd | hd
        · subst hd; exact hc'
        · exact ih.1 d hd
      · intro q hq
        simp only [splitSegs, hc, if_neg, if_false] at hq
        exact ih.2 q hq

theorem joinSegs_cons (c : Char) (h : List Char)
    (p : List (Char × List Char)) :
    joinSegs (c :: h) p = c :: joinSegs h p := by
  cases p with
  | nil => rfl
  | cons q p' =>
    obtain ⟨s, l⟩ := q
    rfl

theorem splitSegs_append_free :
    ∀ (h : List Char) (X : List Char),
      (∀ c ∈ h, jsLineTerminator c = false) →
      splitSegs (h ++ X) = (h ++ (splitSegs X).1, (splitSegs X).2) := by
  intro h
  induction h with
  | nil => intro X _; simp
  | cons c h' ih =>
    intro X hh
    have hc : jsLineTerminator c = false := hh c (by simp)
    have hrec := ih X (fun d hd => hh d (List.mem_cons_of_mem c hd))
    simp [splitSegs, hc, hrec]

theorem splitSegs_joinSegs :
    ∀ (p : List (Char × List Char)) (h : List Char),
      (∀ c ∈ h, jsLineTerminator c = false) →
      (∀ q ∈ p, jsLineTerminator q.1 = true ∧
        ∀ c ∈ q.2, jsLineTerminator c = false) →
      splitSegs (joinSegs h p) = (h, p) := by
  intro p
  induction p with
  | nil =>
    intro h hh _
    exact splitSegs_of_no_term h hh
  | cons q p' ih =>
    obtain ⟨s, l⟩ := q
    intro h hh hp
    obtain ⟨hs, hl⟩ := hp (s, l) (by simp)
    have hp' := fun q hq => hp q (List.mem_cons_of_mem _ hq)
    have hrest := ih l hl hp'
    show splitSegs (h ++ s :: joinSegs l p') = (h, (s, l) :: p')
    rw [splitSegs_append_free h _ hh]
    simp [splitSegs, hs, hrest]

/-- Under the no-cross-segment-trigger hypotheses, the match at a
segment start is exactly the whole-line match, independently of the
following segments and separators. -/
theorem matchExtent_no_trigger (l : List Char)
    (rest : List (Char × List Char)) (hlit : l ≠ importLit)
    (hnot : ¬(startsImportWs l = true ∧ endsWithFrom l = true)) :
    matchExtent l rest = if importLineMatches l then some 0 else none := by
  unfold matchExtent importLineMatches
  rw [if_neg hlit]
  by_cases hs : startsImportWs l
  · have he : endsWithFrom l = false := by
      cases hef : endsWithFrom l
      · rfl
      · exact absurd ⟨hs, hef⟩ hnot
    by_cases hf : hasFromWs (l.drop 7) <;> simp [hs, he, hf]
  · simp [hs]

theorem removeImportsSegs_no_trigger :
    ∀ (l : List Char) (p : List (Char × List Char)),
      (l ≠ importLit ∧ ¬(startsImportWs l = true ∧ endsWithFrom l = true)) →
      (∀ q ∈ p, q.2 ≠ importLit ∧
        ¬(startsImportWs q.2 = true ∧ endsWithFrom q.2 = true)) →
      removeImportsSegs l p = (lineWise l, p.map (fun q => (q.1, lineWise q.2)))
  | l, [], hl, _ => by
    obtain ⟨hlit, hnot⟩ := hl
    have hx := matchExtent_no_trigger l [] hlit hnot
    have hstep : removeImportsSegs l [] =
        (match matchExtent l [] with
         | none => (l, [])
         | some _ => ([], [])) := rfl
    by_cases hm : importLineMatches l
    · rw [if_pos hm] at hx
      rw [hstep, hx]
      simp [lineWise, hm]
    · rw [if_neg hm] at hx
      rw [hstep, hx]
      simp [lineWise, hm]
  | l, [(s₁, l₁)], hl, hp => by
    obtain ⟨hlit, hnot⟩ := hl
    have hx := matchExtent_no_trigger l [(s₁, l₁)] hlit hnot
    have hrec := removeImportsSegs_no_trigger l₁ [] (hp (s₁, l₁) (by simp))
      (fun q hq => absurd hq (List.not_mem_nil q))
    have hstep : removeImportsSegs l [(s₁, l₁)] =
        (match matchExtent l [(s₁, l₁)] with
         | none =>
           (l, (s₁, (removeImportsSegs l₁ []).1) :: (removeImportsSegs l₁ []).2)
         | some 0 =>
           ([], (s₁, (removeImportsSegs l₁ []).1) :: (removeImportsSegs l₁ []).2)
         | some _ => ([], [])) := rfl
    by_cases hm : importLineMatches l
    · rw [if_pos hm] at hx
      rw [hstep, hx, hrec]
      simp [lineWise, hm]
    · rw [if_neg hm] at hx
      rw [hstep, hx, hrec]
      simp [lineWise, hm]
  | l, [(s₁, l₁), (s₂, l₂)], hl, hp => by
    obtain ⟨hlit, hnot⟩ := hl
    have hx := matchExtent_no_trigger l [(s₁, l₁), (s₂, l₂)] hlit hnot
    have hrec := removeImportsSegs_no_trigger l₁ [(s₂, l₂)]
      (hp (s₁, l₁) (by simp))
      (fun q hq => hp q (List.mem_cons_of_mem _ hq))
    have hstep : removeImportsSegs l [(s₁, l₁), (s₂, l₂)] =
        (match matchExtent l [(s₁, l₁), (s₂, l₂)] with
         | none =>
           (l, (s₁, (removeImportsSegs l₁ [(s₂, l₂)]).1) ::
             (removeImportsSegs l₁ [(s₂, l₂)]).2)
         | some 0 =>
           ([], (s₁, (removeImportsSegs l₁ [(s₂, l₂)]).1) ::
             (removeImportsSegs l₁ [(s₂, l₂)]).2)
         | some 1 =>
           ([], (s₂, (removeImportsSegs l₂ []).1) :: (removeImportsSegs l₂ []).2)
         | some _ => ([], [])) := rfl
    by_cases hm : importLineMatches l
    · rw [if_pos hm] at hx
      rw [hstep, hx, hrec]
      simp [lineWise, hm]
    · rw [if_neg hm] at hx
      rw [hstep, hx, hrec]
      simp [lineWise, hm]
  | l, (s₁, l₁) :: (s₂, l₂) :: (s₃, l₃) :: rest, hl, hp => by
    obtain ⟨hlit, hnot⟩ := hl
    have hx := matchExtent_no_trigger l ((s₁, l₁) :: (s₂, l₂) :: (s₃, l₃) :: rest)
      hlit hnot
    have hrec := removeImportsSegs_no_trigger l₁ ((s₂, l₂) :: (s₃, l₃) :: rest)
      (hp (s₁, l₁) (by simp))
      (fun q hq => hp q (List.mem_cons_of_mem _ hq))
    have hstep : removeImportsSegs l ((s₁, l₁) :: (s₂, l₂) :: (s₃, l₃) :: rest) =
        (match matchExtent l ((s₁, l₁) :: (s₂, l₂) :: (s₃, l₃) :: rest) with
         | none =>
           (l, (s₁,
             (removeImportsSegs l₁ ((s₂, l₂) :: (s₃, l₃) :: rest)).1) ::
             (removeImportsSegs l₁ ((s₂, l₂) :: (s₃, l₃) :: rest)).2)
         | some 0 =>
           ([], (s₁,
             (removeImportsSegs l₁ ((s₂, l₂) :: (s₃, l₃) :: rest)).1) ::
             (removeImportsSegs l₁ ((s₂, l₂) :: (s₃, l₃) :: rest)).2)
         | some 1 =>
           ([], (s₂, (removeImportsSegs l₂ ((s₃, l₃) :: rest)).1) ::
             (removeImportsSegs l₂ ((s₃, l₃) :: rest)).2)
         | some _ =>
           ([], (s₃, (removeImportsSegs l₃ rest).1) ::
             (removeImportsSegs l₃ rest).2)) := rfl
    by_cases hm : importLineMatches l
    · rw [if_pos hm] at hx
      rw [hstep, hx, hrec]
      simp [lineWise, hm]
    · rw [if_neg hm] at hx
      rw [hstep, hx, hrec]
      simp [lineWise, hm]

theorem lineWise_idem (l : List Char) : lineWise (lineWise l) = lineWise l := by
  by_cases h : importLineMatches l
  · have h1 : lineWise l = [] := by simp [lineWise, h]
    rw [h1]
    rfl
  · have h1 : lineWise l = l := by simp [lineWise, h]
    rw [h1]
    exact h1

theorem lineWise_no_term (l : List Char)
    (h : ∀ c ∈ l, jsLineTerminator c = false) :
    ∀ c ∈ lineWise l, jsLineTerminator c = false := by
  unfold lineWise
  by_cases hm : importLineMatches l
  · simp [hm]
  · simpa [hm] using h

/-- Claim C10 (counterexample): on `import a from` followed by a second
line `b`, the regex's second whitespace class consumes the newline, the
match spans both lines, and `removeImports` returns the empty string —
while the claim's line-wise description (neither line is a whole-line
match, so nothing changes) keeps the input: the code neither deletes only
whole-line matches nor preserves the line structure here. -/
theorem removeImports_counterexample :
    removeImports "import a from\nb" = "" ∧
    removeImportsLinewise "import a from\nb" = "import a from\nb" ∧
    removeImports "import a from\nb" ≠
      removeImportsLinewise "import a from\nb" :=
  ⟨by decide, by decide, by decide⟩

/-- Claim C10 (amended): on every input none of whose lines is exactly
`import` and none of whose lines both begins with `import` plus
whitespace and ends with `from` — a line being a maximal run between the
ECMAScript line terminators, and those two shapes being exactly the ones
that let a whitespace class of the pattern consume a terminator —
`removeImports` deletes the content of exactly the whole-line import
matches, leaves every other line's content and every separator unchanged
preserving the line structure, and is idempotent. -/
theorem removeImports_amended (s : String)
    (h : ∀ l ∈ allSegs (splitSegs s.data), l ≠ importLit ∧
      ¬(startsImportWs l = true ∧ endsWithFrom l = true)) :
    removeImports s = removeImportsLinewise s ∧
    removeImports (removeImports s) = removeImports s := by
  have hhead := h (splitSegs s.data).1 (by simp [allSegs])
  have hpairs : ∀ q ∈ (splitSegs s.data).2, q.2 ≠ importLit ∧
      ¬(startsImportWs q.2 = true ∧ endsWithFrom q.2 = true) := by
    intro q hq
    exact h q.2
      (List.mem_cons_of_mem _ (List.mem_map_of_mem Prod.snd hq))
  have hseg := removeImportsSegs_no_trigger (splitSegs s.data).1
    (splitSegs s.data).2 hhead hpairs
  have h1 : removeImports s = removeImportsLinewise s := by
    unfold removeImports removeImportsLinewise
    rw [hseg]
  refine ⟨h1, ?_⟩
  rw [h1]
  have hfree := splitSegs_no_term s.data
  have hfree1 : ∀ c ∈ lineWise (splitSegs s.data).1,
      jsLineTerminator c = false := lineWise_no_term _ hfree.1
  have hfree2 : ∀ q ∈ (splitSegs s.data).2.map (fun q => (q.1, lineWise q.2)),
      jsLineTerminator q.1 = true ∧
        ∀ c ∈ q.2, jsLineTerminator c = false := by
    intro q hq
    obtain ⟨q₀, hq₀, hw⟩ := List.mem_map.mp hq
    subst hw
    exact ⟨(hfree.2 q₀ hq₀).1, lineWise_no_term _ (hfree.2 q₀ hq₀).2⟩
  have hround := splitSegs_joinSegs
    ((splitSegs s.data).2.map (fun q => (q.1, lineWise q.2)))
    (lineWise (splitSegs s.data).1) hfree1 hfree2
  have htrig1 : lineWise (splitSegs s.data).1 ≠ importLit ∧
      ¬(startsImportWs (lineWise (splitSegs s.data).1) = true ∧
        endsWithFrom (lineWise (splitSegs s.data).1) = true) := by
    unfold lineWise
    by_cases hm : importLineMatches (splitSegs s.data).1
    · simp only [if_pos hm]
      exact ⟨by simp [importLit], by simp [startsImportWs]⟩
    · simp only [if_neg hm]
      exact hhead
  have htrig2 : ∀ q ∈ (splitSegs s.data).2.map (fun q => (q.1, lineWise q.2)),
      q.2 ≠ importLit ∧
        ¬(startsImportWs q.2 = true ∧ endsWithFrom q.2 = true) := by
    intro q hq
    obtain ⟨q₀, hq₀, hw⟩ := List.mem_map.mp hq
    subst hw
    unfold lineWise
    by_cases hm : importLineMatches q₀.2
    · simp only [if_pos hm]
      exact ⟨by simp [importLit], by simp [startsImportWs]⟩
    · simp only [if_neg hm]
      exact hpairs q₀ hq₀
  have hseg₂ := removeImportsSegs_no_trigger
    (lineWise (splitSegs s.data).1)
    ((splitSegs s.data).2.map (fun q => (q.1, lineWise q.2))) htrig1 htrig2
  unfold removeImports removeImportsLinewise
  show String.mk (joinSegs
      (removeImportsSegs
        (splitSegs (joinSegs (lineWise (splitSegs s.data).1)
          ((splitSegs s.data).2.map (fun q => (q.1, lineWise q.2))))).1
        (splitSegs (joinSegs (lineWise (splitSegs s.data).1)
          ((splitSegs s.data).2.map (fun q => (q.1, lineWise q.2))))).2).1
      (removeImportsSegs
        (splitSegs (joinSegs (lineWise (splitSegs s.data).1)
          ((splitSegs s.data).2.map (fun q => (q.1, lineWise q.2))))).1
        (splitSegs (joinSegs (lineWise (splitSegs s.data).1)
          ((splitSegs s.data).2.map (fun q => (q.1, lineWise q.2))))).2).2) =
    String.mk (joinSegs (lineWise (splitSegs s.data).1)
      ((splitSegs s.data).2.map (fun q => (q.1, lineWise q.2))))
  rw [hround, hseg₂, lineWise_idem]
  have hmaps : ((splitSegs s.data).2.map (fun q => (q.1, lineWise q.2))).map
      (fun q => (q.1, lineWise q.2)) =
      (splitSegs s.data).2.map (fun q => (q.1, lineWise q.2)) := by
    rw [List.map_map]
    apply List.map_congr_left
    intro q _
    show (q.1, lineWise (lineWise q.2)) = (q.1, lineWise q.2)
    rw [lineWise_idem]
  rw [hmaps]

theorem removeImports_amended_witness :
    (∀ l ∈ allSegs (splitSegs ("import x from y;\nkeep" : String).data),
      l ≠ importLit ∧
      ¬(startsImportWs l = true ∧ endsWithFrom l = true)) ∧
    (removeImports "import x from y;\nkeep" =
        removeImportsLinewise "import x from y;\nkeep" ∧
      removeImports (removeImports "import x from y;\nkeep") =
        removeImports "import x from y;\nkeep") :=
  ⟨by decide, removeImports_amended "import x from y;\nkeep" (by decide)⟩
